import Mathlib

/-!
# Student Management System: embedding of `models.h`

Modelling conventions.

* A C++ `int` is an integer of `Int`.  The `int` additions of `std::accumulate` wrap
  modulo `2^32` into `[-2^31, 2^31)` (`wrapInt`): ISO C++ leaves signed overflow
  undefined, the compiled program wraps.  Positions in a vector and vector sizes are
  not wrapped.
* A C++ `double` is the rational number it denotes.  Every conversion to `double` and
  every `double` addition and division is the exact result rounded to the nearest
  binary64 value, ties to even (`fl64`).  The exponent range is not bounded: an
  average is a quotient of an `int` by a size, and the class sum adds fewer than
  `2^64` averages, so every nonzero value computed has a magnitude between `2^-116`
  and `2^95`, far inside the binary64 range; overflow, subnormals, infinities and
  NaN cannot occur.
* `std::string` is `String`; `operator==` on strings is equality of the character
  sequences.
* `std::vector<T>` is `List T`; a `std::shared_ptr<Student>` held by a teacher or a
  parent is the student value itself (no menu mutates a student).
* `std::cout` is a trace of events, one per `operator<<` call, carrying the value
  that was passed; `std::cin` is the list of characters still unread together with
  the `eofbit` and `failbit` of the stream.
-/

namespace SMS

/-! ## Data model -/

/-- The roles of `enum class User::Role`. -/
inductive Role where
  | Student
  | Teacher
  | Parent
deriving DecidableEq, Repr

/-- The fields of `class User`. -/
structure User where
  login_ : String
  pass_ : String
  role_ : Role
deriving DecidableEq, Repr

/-- `User::auth`: `return l == login_ && p == pass_;`. -/
def User.auth (u : User) (l p : String) : Bool :=
  l == u.login_ && p == u.pass_

/-- `User::login`. -/
def User.login (u : User) : String := u.login_

/-- `User::role`. -/
def User.role (u : User) : Role := u.role_

/-- The fields of `class Student`: the `User` base and `grades_`. -/
structure Student extends User where
  grades_ : List Int
deriving DecidableEq, Repr

/-- The constructor `Student(l, p, g)`: the role is `Role::Student` and the grade
vector is moved in as given. -/
def Student.new (l p : String) (g : List Int) : Student :=
  { login_ := l, pass_ := p, role_ := Role.Student, grades_ := g }

/-- `Student::add`: `if (v>=1 && v<=5) grades_.push_back(v);`. -/
def Student.add (s : Student) (v : Int) : Student :=
  if v ≥ 1 ∧ v ≤ 5 then { s with grades_ := s.grades_ ++ [v] } else s

/-- `Student::grades`. -/
def Student.grades (s : Student) : List Int := s.grades_

/-- The value of a 32-bit two's-complement `int` after an operation whose exact
result is `x`. -/
def wrapInt (x : Int) : Int := (x + 2147483648) % 4294967296 - 2147483648

/-- `std::accumulate(first, last, init)` with `operator+` on `int`. -/
def accumulate : List Int → Int → Int
  | [], acc => acc
  | x :: xs, acc => accumulate xs (wrapInt (acc + x))

/-- The nearest integer to a rational, ties to the even neighbour. -/
def roundHalfEven (q : ℚ) : ℤ :=
  if q - (⌊q⌋ : ℚ) < 1 / 2 then ⌊q⌋
  else if 1 / 2 < q - (⌊q⌋ : ℚ) then ⌊q⌋ + 1
  else if ⌊q⌋ % 2 = 0 then ⌊q⌋ else ⌊q⌋ + 1

/-- Rounding to binary64, to nearest with ties to even: a nonzero `q` with
`2^e ≤ |q| < 2^(e+1)` is rounded to a multiple of `2^(e-52)`, that is to a
significand of 53 bits. -/
def fl64 (q : ℚ) : ℚ :=
  if q = 0 then 0
  else (roundHalfEven (q * 2 ^ (52 - Int.log 2 |q|)) : ℚ) * 2 ^ (Int.log 2 |q| - 52)

/-- `Student::average`: `0.0` on an empty vector, otherwise the accumulated `int`
sum converted to `double`, divided by `grades_.size()` converted to `double`. -/
def Student.average (s : Student) : ℚ :=
  if s.grades_.isEmpty then 0
  else fl64 (fl64 ((accumulate s.grades_ 0 : Int) : ℚ) / fl64 ((s.grades_.length : Nat) : ℚ))

/-- The loop of `std::min_element` after the first element, tracking the value the
iterator `smallest` points to: `if (*first < *smallest) smallest = first;`. -/
def minElementLoop (smallest : Int) : List Int → Int
  | [] => smallest
  | x :: xs => if x < smallest then minElementLoop x xs else minElementLoop smallest xs

/-- The loop of `std::max_element` after the first element, tracking the value the
iterator `largest` points to: `if (*largest < *first) largest = first;`. -/
def maxElementLoop (largest : Int) : List Int → Int
  | [] => largest
  | x :: xs => if largest < x then maxElementLoop x xs else maxElementLoop largest xs

/-- `Student::min`: `std::nullopt` on an empty vector, otherwise
`*std::min_element(...)`. -/
def Student.min (s : Student) : Option Int :=
  match s.grades_ with
  | [] => none
  | g :: gs => some (minElementLoop g gs)

/-- `Student::max`: `std::nullopt` on an empty vector, otherwise
`*std::max_element(...)`. -/
def Student.max (s : Student) : Option Int :=
  match s.grades_ with
  | [] => none
  | g :: gs => some (maxElementLoop g gs)

/-- The fields of `class Teacher`: the `User` base and `students_`. -/
structure Teacher extends User where
  students_ : List Student
deriving DecidableEq, Repr

/-- The constructor `Teacher(l, p, list)`. -/
def Teacher.new (l p : String) (list : List Student) : Teacher :=
  { login_ := l, pass_ := p, role_ := Role.Teacher, students_ := list }

/-- The fields of `class Parent`: the `User` base and `kid_`. -/
structure Parent extends User where
  kid_ : Student
deriving DecidableEq, Repr

/-- The constructor `Parent(l, p, kid)`. -/
def Parent.new (l p : String) (kid : Student) : Parent :=
  { login_ := l, pass_ := p, role_ := Role.Parent, kid_ := kid }

/-- An object behind a `std::shared_ptr<User>`: one of the three final subclasses. -/
inductive AnyUser where
  | student (s : Student)
  | teacher (t : Teacher)
  | parent (p : Parent)
deriving DecidableEq, Repr

/-- The `User` base of an object. -/
def AnyUser.toUser : AnyUser → User
  | .student s => s.toUser
  | .teacher t => t.toUser
  | .parent p => p.toUser

/-- `u->auth(l, p)` through a `shared_ptr<User>`. -/
def AnyUser.auth (u : AnyUser) (l p : String) : Bool := u.toUser.auth l p

/-! ## Console model -/

/-- A value passed to one `operator<<` call on `std::cout`. -/
inductive Out where
  | str (s : String)
  | chr (c : Char)
  | int (n : Int)
  | dbl (x : ℚ)
deriving DecidableEq, Repr

/-- An observable event: an output, or the ghost event recording that `System::run`
calls `u->menu()` on a registered object. -/
inductive Event where
  | out (o : Out)
  | call (u : AnyUser)
deriving DecidableEq, Repr

/-- The state of the console: the unread characters of `std::cin`, its `eofbit` and
`failbit`, and the events so far (oldest first). -/
structure Console where
  input : List Char
  eof : Bool
  fail : Bool
  trace : List Event
deriving DecidableEq, Repr

/-- `std::cin.good()`. -/
def Console.good (w : Console) : Bool := !w.eof && !w.fail

/-- One `std::cout << v`. -/
def Console.put (w : Console) (o : Out) : Console :=
  { w with trace := w.trace ++ [Event.out o] }

/-- The ghost event at the call site `u->menu()`. -/
def Console.call (w : Console) (u : AnyUser) : Console :=
  { w with trace := w.trace ++ [Event.call u] }

/-- The objects whose `menu()` was called, in the order of the calls. -/
def callsOf : List Event → List AnyUser
  | [] => []
  | Event.call u :: es => u :: callsOf es
  | Event.out _ :: es => callsOf es

/-- The outputs of a trace, in order. -/
def outsOf : List Event → List Out
  | [] => []
  | Event.call _ :: es => outsOf es
  | Event.out o :: es => o :: outsOf es

/-- `std::isspace` in the "C" locale. -/
def isSpace (c : Char) : Bool :=
  c == ' ' || c == '\t' || c == '\n' || c == '\r' || c == Char.ofNat 11 || c == Char.ofNat 12

/-- The value of a decimal digit character. -/
def digitVal (c : Char) : Nat := c.toNat - 48

/-- The decimal value of a run of digit characters, continuing from `acc`. -/
def digitsVal (acc : Nat) : List Char → Nat
  | [] => acc
  | c :: cs => digitsVal (acc * 10 + digitVal c) cs

/-- `std::numeric_limits<int>::max()`. -/
def INT_MAX : Int := 2147483647

/-- `std::numeric_limits<int>::min()`. -/
def INT_MIN : Int := -2147483648

/-- `std::cin >> s` for a `std::string`: when the stream is not good, or only white
space is left, `failbit` is set and the string is left as it was (`none`);
otherwise leading white space is skipped and the characters up to the next white
space are stored. -/
def readString (w : Console) : Option String × Console :=
  if w.good then
    match w.input.dropWhile isSpace with
    | [] => (none, { w with input := [], eof := true, fail := true })
    | c :: cs =>
      let rest := (c :: cs).dropWhile (fun x => !isSpace x)
      (some (String.mk ((c :: cs).takeWhile (fun x => !isSpace x))),
        { w with input := rest, eof := rest.isEmpty })
  else (none, { w with fail := true })

/-- The conversion of `num_get` for an `int`: an optional sign and a run of decimal
digits.  Without a digit the value `0` is stored and `failbit` is set; a value out
of range is stored as the nearest limit and `failbit` is set. -/
def parseInt (w : Console) (neg : Bool) (cs : List Char) : Option Int × Console :=
  let ds := cs.takeWhile Char.isDigit
  let rest := cs.dropWhile Char.isDigit
  if ds.isEmpty then
    (some 0, { w with input := rest, eof := rest.isEmpty, fail := true })
  else
    let v : Int := if neg then -((digitsVal 0 ds : Nat) : Int) else ((digitsVal 0 ds : Nat) : Int)
    if v > INT_MAX then
      (some INT_MAX, { w with input := rest, eof := rest.isEmpty, fail := true })
    else if v < INT_MIN then
      (some INT_MIN, { w with input := rest, eof := rest.isEmpty, fail := true })
    else (some v, { w with input := rest, eof := rest.isEmpty })

/-- `std::cin >> n` for an `int`: when the stream is not good, or only white space
is left, `failbit` is set and the variable is left as it was (`none`); otherwise
the value stored is that of `parseInt`. -/
def readInt (w : Console) : Option Int × Console :=
  if w.good then
    match w.input.dropWhile isSpace with
    | [] => (none, { w with input := [], eof := true, fail := true })
    | c :: cs =>
      if c == '-' then parseInt w true cs
      else if c == '+' then parseInt w false cs
      else parseInt w false (c :: cs)
  else (none, { w with fail := true })

/-- `std::cin.ignore(max, '\n')`: discards up to and including the next newline;
at the end of the input `eofbit` is set. -/
def ignoreLine (w : Console) : Console :=
  if w.good then
    match w.input.dropWhile (fun c => c != '\n') with
    | [] => { w with input := [], eof := true }
    | _ :: rest => { w with input := rest }
  else { w with fail := true }

/-- The free function `pause`. -/
def pause (w : Console) : Console :=
  ignoreLine (w.put (Out.str "Press Enter to continue..."))

/-! ## Menus -/

/-- Why a run of the model yields no final console: the step budget ran out, or the
C++ program has undefined behaviour (a read of an uninitialised `int`, or an
element access outside a vector). -/
inductive Halt where
  | fuel
  | undefined
deriving DecidableEq, Repr

/-- The optional grade as printed in a statistics line:
`(m ? std::to_string(*m) : "-")`. -/
def optText : Option Int → String
  | some v => toString v
  | none => "-"

/-- The statistics line of a student without the final pause:
`"Avg:" << average() << " Min:" << ... << " Max:" << ... << '\n'`. -/
def statsLine (s : Student) (w : Console) : Console :=
  ((((((w.put (Out.str "Avg:")).put (Out.dbl s.average)).put (Out.str " Min:")).put
    (Out.str (optText s.min))).put (Out.str " Max:")).put (Out.str (optText s.max))).put
    (Out.chr '\n')

/-- The loop `for(int g:grades) std::cout << g << ' ';`. -/
def putGrades : List Int → Console → Console
  | [], w => w
  | g :: gs, w => putGrades gs ((w.put (Out.int g)).put (Out.chr ' '))

/-- The grades line: `"Grades: "`, the grades, `'\n'`, then `pause()`. -/
def gradesAction (s : Student) (w : Console) : Console :=
  pause ((putGrades s.grades (w.put (Out.str "Grades: "))).put (Out.chr '\n'))

/-- The statistics line followed by `pause()`. -/
def statsAction (s : Student) (w : Console) : Console :=
  pause (statsLine s w)

/-- `Student::menu`, one loop iteration per unit of fuel.  When `std::cin >> c`
stores nothing, the test `c==0` reads the uninitialised `c`: undefined behaviour. -/
def Student.menu : Nat → Student → Console → Except Halt Console
  | 0, _, _ => Except.error Halt.fuel
  | fuel + 1, s, w =>
    match readInt ((((w.put (Out.str "\n--- Student (")).put (Out.str s.login)).put
        (Out.str ") ---\n")).put (Out.str "1) Grades  2) Stats  0) Logout\n> ")) with
    | (none, _) => Except.error Halt.undefined
    | (some c, w1) =>
      if c = 0 then Except.ok w1
      else if c = 1 then Student.menu fuel s (gradesAction s w1)
      else if c = 2 then Student.menu fuel s (statsAction s w1)
      else Student.menu fuel s w1

/-- The loop `int idx=1; for(auto&s:students_) std::cout<<idx++<<") "<<s->login()<<'\n';`
started at `idx`. -/
def putRoster : List Student → Int → Console → Console
  | [], _, w => w
  | s :: ss, idx, w =>
    putRoster ss (idx + 1) ((((w.put (Out.int idx)).put (Out.str ") ")).put
      (Out.str s.login)).put (Out.chr '\n'))

/-- The console at the moment `std::cin>>idx` is executed in the per-student action:
the roster and `"Pick:"` have been printed. -/
def pickPrompt (t : Teacher) (w : Console) : Console :=
  (putRoster t.students_ 1 w).put (Out.str "Pick:")

/-- The value of `idx` after `std::cin>>idx`: the value stored by the read, or the
value the roster loop left (`students_.size() + 1`) when the read stores nothing. -/
def pickedIndex (t : Teacher) (w : Console) : Int :=
  match (readInt (pickPrompt t w)).1 with
  | some v => v
  | none => (t.students_.length : Int) + 1

/-- The per-student action of `Teacher::menu` (the branch `c==1`). -/
def Teacher.perStudent (t : Teacher) (w : Console) : Except Halt Console :=
  let idx := pickedIndex t w
  let w2 := (readInt (pickPrompt t w)).2
  if idx ≥ 1 ∧ idx ≤ (t.students_.length : Int) then
    match t.students_[(idx - 1).toNat]? with
    | none => Except.error Halt.undefined
    | some s => Except.ok (pause (statsLine s w2))
  else Except.ok (pause w2)

/-- The loop `double sum=0; for(auto&s:students_) sum+=s->average();` started at
`sum`; each `+=` is a `double` addition. -/
def sumAverages : List Student → ℚ → ℚ
  | [], sum => sum
  | s :: ss, sum => sumAverages ss (fl64 (sum + s.average))

/-- The value printed by the class-average action:
`students_.empty() ? 0.0 : sum/students_.size()`, the size converted to `double`. -/
def Teacher.classAverage (t : Teacher) : ℚ :=
  if t.students_.isEmpty then 0
  else fl64 (sumAverages t.students_ 0 / fl64 ((t.students_.length : Nat) : ℚ))

/-- The class-average action of `Teacher::menu` (the branch `c==2`). -/
def Teacher.classAvgAction (t : Teacher) (w : Console) : Console :=
  pause (((w.put (Out.str "Class average:")).put (Out.dbl t.classAverage)).put (Out.chr '\n'))

/-- The console at the moment `std::cin >> c` is executed in `Teacher::menu`. -/
def Teacher.menuPrompt (t : Teacher) (w : Console) : Console :=
  (((w.put (Out.str "\n--- Teacher (")).put (Out.str t.login)).put
    (Out.str ") ---\n")).put (Out.str "1) Per-student  2) Class avg  0) Logout\n> ")

/-- `Teacher::menu`, one loop iteration per unit of fuel; a read of `c` that stores
nothing is undefined behaviour, as in `Student::menu`. -/
def Teacher.menu : Nat → Teacher → Console → Except Halt Console
  | 0, _, _ => Except.error Halt.fuel
  | fuel + 1, t, w =>
    match readInt (t.menuPrompt w) with
    | (none, _) => Except.error Halt.undefined
    | (some c, w1) =>
      if c = 0 then Except.ok w1
      else if c = 1 then
        match t.perStudent w1 with
        | Except.error e => Except.error e
        | Except.ok w2 => Teacher.menu fuel t w2
      else if c = 2 then Teacher.menu fuel t (t.classAvgAction w1)
      else Teacher.menu fuel t w1

/-- `Parent::menu`, one loop iteration per unit of fuel; a read of `c` that stores
nothing is undefined behaviour, as in `Student::menu`. -/
def Parent.menu : Nat → Parent → Console → Except Halt Console
  | 0, _, _ => Except.error Halt.fuel
  | fuel + 1, p, w =>
    match readInt ((((w.put (Out.str "\n--- Parent (")).put (Out.str p.login)).put
        (Out.str ") ---\n")).put (Out.str "1) Child grades  2) Child stats  0) Logout\n> ")) with
    | (none, _) => Except.error Halt.undefined
    | (some c, w1) =>
      if c = 0 then Except.ok w1
      else if c = 1 then Parent.menu fuel p (gradesAction p.kid_ w1)
      else if c = 2 then Parent.menu fuel p (statsAction p.kid_ w1)
      else Parent.menu fuel p w1

/-- The virtual call `u->menu()`. -/
def AnyUser.menu (fuel : Nat) : AnyUser → Console → Except Halt Console
  | .student s, w => s.menu fuel w
  | .teacher t, w => t.menu fuel w
  | .parent p, w => p.menu fuel w

/-! ## System -/

/-- The field of `class System`. -/
structure System where
  users_ : List AnyUser
deriving DecidableEq, Repr

/-- `System::add`: `users_.push_back(u)`. -/
def System.add (sys : System) (u : AnyUser) : System :=
  { users_ := sys.users_ ++ [u] }

/-- The loop `for(auto&u:users_) if(u->auth(l,p)){ ok=true; u->menu(); }` over the
users still to visit, from the current value of `ok`; returns the final `ok`. -/
def System.scan (fuel : Nat) (l p : String) :
    List AnyUser → Bool → Console → Except Halt (Bool × Console)
  | [], ok, w => Except.ok (ok, w)
  | u :: us, ok, w =>
    if u.auth l p then
      match u.menu fuel (w.call u) with
      | Except.error e => Except.error e
      | Except.ok w1 => System.scan fuel l p us true w1
    else System.scan fuel l p us ok w

/-- The authentication step of `System::run` for the entered `l` and `p`:
`bool ok=false;`, the scan, then `if(!ok) std::cout<<"Wrong credentials!\n";`. -/
def System.authStep (fuel : Nat) (sys : System) (l p : String) (w : Console) :
    Except Halt Console :=
  match System.scan fuel l p sys.users_ false w with
  | Except.error e => Except.error e
  | Except.ok (ok, w1) =>
    Except.ok (if !ok then w1.put (Out.str "Wrong credentials!\n") else w1)

/-- The console at the moment `std::cin>>l` is executed in `System::run`. -/
def loginPrompt (w : Console) : Console :=
  w.put (Out.str "\nLogin(exit=quit): ")

/-- The value of a fresh `std::string` after `std::cin >> s`: the token read, or the
empty string when the read stores nothing. -/
def tokenOr (r : Option String) : String :=
  match r with
  | some s => s
  | none => ""

/-- `System::run`, one iteration of the session loop per unit of fuel; the menus
called in an iteration get the same budget. -/
def System.run : Nat → System → Console → Except Halt Console
  | 0, _, _ => Except.error Halt.fuel
  | fuel + 1, sys, w =>
    let r1 := readString (loginPrompt w)
    if tokenOr r1.1 = "exit" then Except.ok r1.2
    else
      let r2 := readString (r1.2.put (Out.str "Password: "))
      match System.authStep (fuel + 1) sys (tokenOr r1.1) (tokenOr r2.1) r2.2 with
      | Except.error e => Except.error e
      | Except.ok w3 => System.run fuel sys w3

/-- The roster of `main`: `alice`. -/
def alice : Student := Student.new "alice" "123" [4, 5, 3]

/-- The roster of `main`: `bob`. -/
def bob : Student := Student.new "bob" "123" [5, 4, 4]

/-- The roster of `main`: `tina`. -/
def tina : Teacher := Teacher.new "tina" "teach" [alice, bob]

/-- The roster of `main`: `paul`. -/
def paul : Parent := Parent.new "paul" "parent" alice

/-- The system built by `main` before `sys.run()`. -/
def mainSystem : System :=
  (((System.mk []).add (AnyUser.student alice)).add (AnyUser.student bob)).add
    (AnyUser.teacher tina) |>.add (AnyUser.parent paul)

/-- A console with the given text as its whole input and no event yet. -/
def Console.ofInput (text : String) : Console :=
  { input := text.toList, eof := false, fail := false, trace := [] }

/-- The roster of `main` with a second student registered under the login and
password of `alice`. -/
def twin : Student := Student.new "alice" "123" [2]

/-- A directory in which two registered identities share one login/password pair. -/
def dupSystem : System :=
  (((System.mk []).add (AnyUser.student alice)).add (AnyUser.student twin)).add
    (AnyUser.student bob)

/-- A student holding 429496730 grades, each of them 5. -/
def manyFives : Student := Student.new "m" "m" (List.replicate 429496730 5)

/-- A teacher whose two students hold the grades `[5]` and `[1,1,1]`. -/
def unevenTeacher : Teacher :=
  Teacher.new "t" "t" [Student.new "a" "a" [5], Student.new "b" "b" [1, 1, 1]]

/-- The `double` additions of the class-average loop on a list of values, started
at `sum`. -/
def flSum : List ℚ → ℚ → ℚ
  | [], sum => sum
  | a :: as, sum => flSum as (fl64 (sum + a))

/-- The unit roundoff of binary64, `2^-53`. -/
def unitRoundoff : ℚ := 1 / 2 ^ 53

/-- A directory whose only registered user has the login `"exit"`. -/
def exitSystem : System :=
  (System.mk []).add (AnyUser.student (Student.new "exit" "pw" [5]))

/-! ## The authentication step as the specification words it -/

/-- The registered users whose `auth(l, p)` is true, in insertion order. -/
def matching (sys : System) (l p : String) : List AnyUser :=
  sys.users_.filter (fun u => u.auth l p)

/-- The views of the listed users run one after another, each `menu()` called once,
in list order. -/
def runViews (fuel : Nat) : List AnyUser → Console → Except Halt Console
  | [], w => Except.ok w
  | u :: us, w =>
    match u.menu fuel (w.call u) with
    | Except.error e => Except.error e
    | Except.ok w1 => runViews fuel us w1

/-- The authentication step in the words of the specification: the view of every
matching user runs, in insertion order, and `"Wrong credentials!"` is printed if and
only if no registered user matches. -/
def specAuthStep (fuel : Nat) (sys : System) (l p : String) (w : Console) :
    Except Halt Console :=
  match runViews fuel (matching sys l p) w with
  | Except.error e => Except.error e
  | Except.ok w1 =>
    Except.ok (if (matching sys l p).isEmpty then w1.put (Out.str "Wrong credentials!\n") else w1)

/-! ## Grades: lemmas -/

theorem minElementLoop_mem (m : Int) (xs : List Int) :
    minElementLoop m xs ∈ m :: xs := by
  induction xs generalizing m with
  | nil => simp [minElementLoop]
  | cons x xs ih =>
    unfold minElementLoop
    split
    · have := ih x
      simp only [List.mem_cons] at this ⊢
      tauto
    · have := ih m
      simp only [List.mem_cons] at this ⊢
      tauto

theorem minElementLoop_le (m : Int) (xs : List Int) :
    ∀ e ∈ m :: xs, minElementLoop m xs ≤ e := by
  induction xs generalizing m with
  | nil => simp [minElementLoop]
  | cons x xs ih =>
    intro e he
    unfold minElementLoop
    split
    · rename_i hlt
      have h1 := ih x
      rcases List.mem_cons.1 he with rfl | he2
      · exact le_trans (h1 x (List.mem_cons_self _ _)) (le_of_lt hlt)
      · exact h1 e he2
    · rename_i hnlt
      have h1 := ih m
      rcases List.mem_cons.1 he with rfl | he2
      · exact h1 e (List.mem_cons_self _ _)
      · rcases List.mem_cons.1 he2 with rfl | he3
        · exact le_trans (h1 m (List.mem_cons_self _ _)) (not_lt.1 hnlt)
        · exact h1 e (List.mem_cons_of_mem _ he3)

theorem maxElementLoop_mem (m : Int) (xs : List Int) :
    maxElementLoop m xs ∈ m :: xs := by
  induction xs generalizing m with
  | nil => simp [maxElementLoop]
  | cons x xs ih =>
    unfold maxElementLoop
    split
    · have := ih x
      simp only [List.mem_cons] at this ⊢
      tauto
    · have := ih m
      simp only [List.mem_cons] at this ⊢
      tauto

theorem le_maxElementLoop (m : Int) (xs : List Int) :
    ∀ e ∈ m :: xs, e ≤ maxElementLoop m xs := by
  induction xs generalizing m with
  | nil => simp [maxElementLoop]
  | cons x xs ih =>
    intro e he
    unfold maxElementLoop
    split
    · rename_i hlt
      have h1 := ih x
      rcases List.mem_cons.1 he with rfl | he2
      · exact le_trans (le_of_lt hlt) (h1 x (List.mem_cons_self _ _))
      · exact h1 e he2
    · rename_i hnlt
      have h1 := ih m
      rcases List.mem_cons.1 he with rfl | he2
      · exact h1 e (List.mem_cons_self _ _)
      · rcases List.mem_cons.1 he2 with rfl | he3
        · exact le_trans (not_lt.1 hnlt) (h1 m (List.mem_cons_self _ _))
        · exact h1 e (List.mem_cons_of_mem _ he3)

/-- In-range grades stay in range under `Student::add`. -/
theorem Student.add_keeps_range (s : Student) (v : Int)
    (h : ∀ e ∈ s.grades, 1 ≤ e ∧ e ≤ 5) : ∀ e ∈ (s.add v).grades, 1 ≤ e ∧ e ≤ 5 := by
  intro e he
  unfold Student.add at he
  split at he
  · rename_i hv
    simp only [Student.grades, List.mem_append, List.mem_singleton] at he
    rcases he with he | rfl
    · exact h e he
    · exact ⟨hv.1, hv.2⟩
  · exact h e he

/-! ## Claims on the data model -/

/-- C1: `User::auth` returns true exactly when the candidate login equals the stored
login and the candidate password equals the stored password; the comparison is
exact (a login differing only in case, or by a trailing blank, is rejected) and the
role plays no part in the result. -/
theorem User.auth_iff_exact_match :
    (∀ (u : User) (l p : String), u.auth l p = true ↔ (l = u.login_ ∧ p = u.pass_)) ∧
    (∀ (l0 p0 : String) (r1 r2 : Role) (l p : String),
      (User.mk l0 p0 r1).auth l p = (User.mk l0 p0 r2).auth l p) ∧
    (User.mk "alice" "123" Role.Student).auth "Alice" "123" = false ∧
    (User.mk "alice" "Pw" Role.Student).auth "alice" "pw" = false ∧
    (User.mk "alice" "123" Role.Student).auth "alice " "123" = false ∧
    (User.mk "alice" "123" Role.Student).auth "alice" "123" = true := by
  refine ⟨?_, ?_, by decide, by decide, by decide, by decide⟩
  · intro u l p
    simp [User.auth]
  · intro l0 p0 r1 r2 l p
    rfl

/-- C3: `Student::add(v)` appends `v` at the end of the grade sequence when
`1 ≤ v ≤ 5` and leaves the sequence as it was otherwise; it is a total function
(no error value) and the login, password and role are unchanged. -/
theorem Student.add_spec (s : Student) (v : Int) :
    ((1 ≤ v ∧ v ≤ 5) → (s.add v).grades = s.grades ++ [v]) ∧
    (¬ (1 ≤ v ∧ v ≤ 5) → (s.add v).grades = s.grades) ∧
    (s.add v).toUser = s.toUser := by
  refine ⟨?_, ?_, ?_⟩
  · intro h
    simp [Student.add, Student.grades, h.1, h.2]
  · intro h
    have h2 : ¬ (v ≥ 1 ∧ v ≤ 5) := h
    simp only [Student.add, if_neg h2]
  · unfold Student.add
    split <;> rfl

theorem Student.add_spec_witness :
    (alice.add 5).grades = [4, 5, 3, 5] ∧ (alice.add 6).grades = [4, 5, 3] ∧
    (alice.add 0).grades = [4, 5, 3] ∧ (alice.add (-2)).grades = [4, 5, 3] :=
  ⟨(Student.add_spec alice 5).1 (by decide), (Student.add_spec alice 6).2.1 (by decide),
    (Student.add_spec alice 0).2.1 (by decide), (Student.add_spec alice (-2)).2.1 (by decide)⟩

/-- C4: the constructor stores the initial grade vector unchecked: a student
constructed from `[7]` holds the grade 7, which is outside `[1,5]`, and keeps it
under later `add` calls. -/
theorem Student.new_stores_out_of_range :
    (Student.new "x" "x" [7]).grades = [7] ∧
    ((Student.new "x" "x" [7]).add 3).grades = [7, 3] ∧
    ¬ (∀ e ∈ ((Student.new "x" "x" [7]).add 3).grades, 1 ≤ e ∧ e ≤ 5) := by
  refine ⟨by decide, by decide, by decide⟩

/-- C6: `Student::min` and `Student::max` are absent exactly on the empty grade
sequence; on a non-empty sequence both are present, both are elements of the
sequence and `min ≤ e ≤ max` for every element `e`; the grades `[5,4,3]` give
min 3 and max 5. -/
theorem Student.min_max_spec :
    (∀ s : Student, (s.min = none ↔ s.grades = []) ∧ (s.max = none ↔ s.grades = [])) ∧
    (∀ s : Student, s.grades ≠ [] →
      ∃ lo hi : Int, s.min = some lo ∧ s.max = some hi ∧ lo ∈ s.grades ∧ hi ∈ s.grades ∧
        ∀ e ∈ s.grades, lo ≤ e ∧ e ≤ hi) ∧
    (Student.new "x" "x" [5, 4, 3]).min = some 3 ∧
    (Student.new "x" "x" [5, 4, 3]).max = some 5 := by
  refine ⟨?_, ?_, by decide, by decide⟩
  · intro s
    cases hg : s.grades_ with
    | nil => simp [Student.min, Student.max, Student.grades, hg]
    | cons g gs => simp [Student.min, Student.max, Student.grades, hg]
  · intro s hs
    cases hg : s.grades_ with
    | nil => exact absurd hg hs
    | cons g gs =>
      refine ⟨minElementLoop g gs, maxElementLoop g gs, ?_, ?_, ?_, ?_, ?_⟩
      · simp [Student.min, hg]
      · simp [Student.max, hg]
      · simpa [Student.grades, hg] using minElementLoop_mem g gs
      · simpa [Student.grades, hg] using maxElementLoop_mem g gs
      · intro e he
        have he2 : e ∈ g :: gs := by simpa [Student.grades, hg] using he
        exact ⟨minElementLoop_le g gs e he2, le_maxElementLoop g gs e he2⟩

theorem Student.min_max_spec_witness :
    ∃ lo hi : Int, bob.min = some lo ∧ bob.max = some hi ∧ lo ∈ bob.grades ∧
      hi ∈ bob.grades ∧ ∀ e ∈ bob.grades, lo ≤ e ∧ e ≤ hi :=
  Student.min_max_spec.2.1 bob (by decide)

/-! ## Console: lemmas -/

@[simp] theorem Console.put_trace (w : Console) (o : Out) :
    (w.put o).trace = w.trace ++ [Event.out o] := rfl

@[simp] theorem Console.call_trace (w : Console) (u : AnyUser) :
    (w.call u).trace = w.trace ++ [Event.call u] := rfl

theorem callsOf_append (a b : List Event) : callsOf (a ++ b) = callsOf a ++ callsOf b := by
  induction a with
  | nil => rfl
  | cons e es ih => cases e <;> simp [callsOf, ih]

theorem outsOf_append (a b : List Event) : outsOf (a ++ b) = outsOf a ++ outsOf b := by
  induction a with
  | nil => rfl
  | cons e es ih => cases e <;> simp [outsOf, ih]

@[simp] theorem callsOf_put (w : Console) (o : Out) :
    callsOf (w.put o).trace = callsOf w.trace := by
  simp [callsOf_append, callsOf]

@[simp] theorem parseInt_trace (w : Console) (neg : Bool) (cs : List Char) :
    (parseInt w neg cs).2.trace = w.trace := by
  unfold parseInt
  dsimp only
  split_ifs <;> rfl

@[simp] theorem readInt_trace (w : Console) : (readInt w).2.trace = w.trace := by
  unfold readInt
  split
  · split
    · rfl
    · split
      · exact parseInt_trace _ _ _
      · split <;> exact parseInt_trace _ _ _
  · rfl

@[simp] theorem readString_trace (w : Console) : (readString w).2.trace = w.trace := by
  unfold readString
  split
  · split <;> rfl
  · rfl

@[simp] theorem ignoreLine_trace (w : Console) : (ignoreLine w).trace = w.trace := by
  unfold ignoreLine
  split
  · split <;> rfl
  · rfl

@[simp] theorem pause_trace (w : Console) :
    (pause w).trace = w.trace ++ [Event.out (Out.str "Press Enter to continue...")] := by
  simp [pause]

@[simp] theorem statsLine_trace (s : Student) (w : Console) :
    (statsLine s w).trace = w.trace ++
      [Event.out (Out.str "Avg:"), Event.out (Out.dbl s.average), Event.out (Out.str " Min:"),
       Event.out (Out.str (optText s.min)), Event.out (Out.str " Max:"),
       Event.out (Out.str (optText s.max)), Event.out (Out.chr '\n')] := by
  simp [statsLine]

@[simp] theorem callsOf_putGrades (gs : List Int) (w : Console) :
    callsOf (putGrades gs w).trace = callsOf w.trace := by
  induction gs generalizing w with
  | nil => rfl
  | cons g gs ih => simp [putGrades, ih, callsOf_append, callsOf]

@[simp] theorem callsOf_putRoster (ss : List Student) (idx : Int) (w : Console) :
    callsOf (putRoster ss idx w).trace = callsOf w.trace := by
  induction ss generalizing idx w with
  | nil => rfl
  | cons s ss ih => simp [putRoster, ih, callsOf_append, callsOf]

@[simp] theorem callsOf_gradesAction (s : Student) (w : Console) :
    callsOf (gradesAction s w).trace = callsOf w.trace := by
  simp [gradesAction, callsOf_append, callsOf]

@[simp] theorem callsOf_statsAction (s : Student) (w : Console) :
    callsOf (statsAction s w).trace = callsOf w.trace := by
  simp [statsAction, callsOf_append, callsOf]

theorem callsOf_readInt {w w1 : Console} {r : Option Int} (h : readInt w = (r, w1)) :
    callsOf w1.trace = callsOf w.trace := by
  have := readInt_trace w
  rw [h] at this
  simp only at this
  rw [this]

theorem Student.studentMenu_calls (fuel : Nat) (s : Student) (w w' : Console)
    (h : s.menu fuel w = Except.ok w') : callsOf w'.trace = callsOf w.trace := by
  induction fuel generalizing w with
  | zero => simp [Student.menu] at h
  | succ n ih =>
    unfold Student.menu at h
    split at h
    · simp at h
    · rename_i c w1 hr
      have h1 := callsOf_readInt hr
      simp only [callsOf_put] at h1
      split at h
      · cases h
        exact h1
      · split at h
        · rw [ih _ h, callsOf_gradesAction, h1]
        · split at h
          · rw [ih _ h, callsOf_statsAction, h1]
          · rw [ih _ h, h1]

theorem Parent.parentMenu_calls (fuel : Nat) (p : Parent) (w w' : Console)
    (h : p.menu fuel w = Except.ok w') : callsOf w'.trace = callsOf w.trace := by
  induction fuel generalizing w with
  | zero => simp [Parent.menu] at h
  | succ n ih =>
    unfold Parent.menu at h
    split at h
    · simp at h
    · rename_i c w1 hr
      have h1 := callsOf_readInt hr
      simp only [callsOf_put] at h1
      split at h
      · cases h
        exact h1
      · split at h
        · rw [ih _ h, callsOf_gradesAction, h1]
        · split at h
          · rw [ih _ h, callsOf_statsAction, h1]
          · rw [ih _ h, h1]

theorem Teacher.perStudent_calls (t : Teacher) (w w' : Console)
    (h : t.perStudent w = Except.ok w') : callsOf w'.trace = callsOf w.trace := by
  unfold Teacher.perStudent at h
  dsimp only at h
  split at h
  · split at h
    · simp at h
    · cases h
      simp [callsOf_append, callsOf, pickPrompt]
  · cases h
    simp [callsOf_append, callsOf, pickPrompt]

theorem Teacher.teacherMenu_calls (fuel : Nat) (t : Teacher) (w w' : Console)
    (h : t.menu fuel w = Except.ok w') : callsOf w'.trace = callsOf w.trace := by
  induction fuel generalizing w with
  | zero => simp [Teacher.menu] at h
  | succ n ih =>
    unfold Teacher.menu at h
    split at h
    · simp at h
    · rename_i c w1 hr
      have h1 := callsOf_readInt hr
      simp only [Teacher.menuPrompt, callsOf_put] at h1
      split at h
      · cases h
        exact h1
      · split at h
        · split at h
          · simp at h
          · rename_i w2 hp
            rw [ih _ h, Teacher.perStudent_calls t _ _ hp, h1]
        · split at h
          · rw [ih _ h]
            simp [Teacher.classAvgAction, callsOf_append, callsOf, h1]
          · rw [ih _ h, h1]

theorem AnyUser.anyMenu_calls (fuel : Nat) (u : AnyUser) (w w' : Console)
    (h : u.menu fuel w = Except.ok w') : callsOf w'.trace = callsOf w.trace := by
  cases u with
  | student s => exact Student.studentMenu_calls fuel s w w' h
  | teacher t => exact Teacher.teacherMenu_calls fuel t w w' h
  | parent p => exact Parent.parentMenu_calls fuel p w w' h

/-! ## Authentication scan: lemmas -/

theorem System.scan_eq_runViews (fuel : Nat) (l p : String) (us : List AnyUser) (ok : Bool)
    (w : Console) :
    System.scan fuel l p us ok w =
      match runViews fuel (us.filter (fun u => u.auth l p)) w with
      | Except.error e => Except.error e
      | Except.ok w1 => Except.ok (ok || !(us.filter (fun u => u.auth l p)).isEmpty, w1) := by
  induction us generalizing ok w with
  | nil => simp [System.scan, runViews]
  | cons u us ih =>
    unfold System.scan
    by_cases hu : u.auth l p = true
    · simp only [hu, if_true, List.filter_cons_of_pos, runViews]
      cases hm : u.menu fuel (w.call u) with
      | error e => rfl
      | ok w1 =>
        simp only []
        rw [ih]
        cases runViews fuel (us.filter (fun u => u.auth l p)) w1 <;> simp
    · have hf : (u :: us).filter (fun u => u.auth l p) = us.filter (fun u => u.auth l p) :=
        List.filter_cons_of_neg hu
      rw [hf, ← ih, if_neg hu]

theorem runViews_calls (fuel : Nat) (vs : List AnyUser) (w w' : Console)
    (h : runViews fuel vs w = Except.ok w') : callsOf w'.trace = callsOf w.trace ++ vs := by
  induction vs generalizing w with
  | nil =>
    simp only [runViews, Except.ok.injEq] at h
    subst h
    simp
  | cons u us ih =>
    unfold runViews at h
    split at h
    · simp at h
    · rename_i w1 hm
      rw [ih _ h, AnyUser.anyMenu_calls fuel u _ _ hm]
      simp [callsOf_append, callsOf]

theorem System.authStep_eq_spec (fuel : Nat) (sys : System) (l p : String) (w : Console) :
    System.authStep fuel sys l p w = specAuthStep fuel sys l p w := by
  unfold System.authStep specAuthStep matching
  rw [System.scan_eq_runViews]
  cases runViews fuel (sys.users_.filter (fun u => u.auth l p)) w with
  | error e => rfl
  | ok w1 =>
    simp only [Bool.false_or, Bool.not_not]

/-! ## Claims on the authentication step -/

/-- C2: the authentication step of `System::run` is the sequential run of the views
of the registered users whose `auth(l, p)` is true, each `menu()` called once, in
insertion order, and of no other user; the calls it makes are exactly the matching
users in insertion order (all of them when several share the pair); when no user
matches it makes no call and prints exactly `"Wrong credentials!"`, and when some
user matches the final console is the one the views left, no message added. -/
theorem System.authStep_runs_every_match (fuel : Nat) (sys : System) (l p : String)
    (w : Console) :
    System.authStep fuel sys l p w = specAuthStep fuel sys l p w ∧
    (∀ w', System.authStep fuel sys l p w = Except.ok w' →
      callsOf w'.trace = callsOf w.trace ++ matching sys l p) ∧
    (matching sys l p = [] →
      System.authStep fuel sys l p w = Except.ok (w.put (Out.str "Wrong credentials!\n"))) ∧
    (matching sys l p ≠ [] →
      System.authStep fuel sys l p w = runViews fuel (matching sys l p) w) := by
  refine ⟨System.authStep_eq_spec fuel sys l p w, ?_, ?_, ?_⟩
  · intro w' h
    rw [System.authStep_eq_spec] at h
    unfold specAuthStep at h
    split at h
    · simp at h
    · rename_i w1 hv
      have hc := runViews_calls fuel _ w w1 hv
      simp only [Except.ok.injEq] at h
      subst h
      split
      · simp [callsOf_append, callsOf, hc]
      · exact hc
  · intro hm
    rw [System.authStep_eq_spec]
    simp [specAuthStep, hm, runViews]
  · intro hm
    rw [System.authStep_eq_spec]
    unfold specAuthStep
    cases runViews fuel (matching sys l p) w with
    | error e => rfl
    | ok w1 => simp [hm]

theorem System.authStep_runs_every_match_witness :
    ∃ w', System.authStep 3 dupSystem "alice" "123" (Console.ofInput "0\n0\n") = Except.ok w' ∧
      callsOf w'.trace = [AnyUser.student alice, AnyUser.student twin] ∧
      System.authStep 3 mainSystem "ghost" "pw" (Console.ofInput "0\n") =
        Except.ok ((Console.ofInput "0\n").put (Out.str "Wrong credentials!\n")) :=
  ⟨_, rfl,
    (System.authStep_runs_every_match 3 dupSystem "alice" "123" (Console.ofInput "0\n0\n")).2.1 _ rfl,
    (System.authStep_runs_every_match 3 mainSystem "ghost" "pw" (Console.ofInput "0\n")).2.2.1
      (by decide)⟩

theorem filter_of_find {α : Type} (q : α → Bool) (us : List α) (u : α)
    (h : us.find? q = some u) :
    ∃ pre post, us = pre ++ u :: post ∧ (∀ x ∈ pre, q x = false) ∧ q u = true ∧
      us.filter q = u :: post.filter q := by
  induction us with
  | nil => simp at h
  | cons x xs ih =>
    by_cases hx : q x = true
    · have hxu : x = u := by simpa [List.find?, hx] using h
      subst hxu
      exact ⟨[], xs, rfl, by simp, hx, by simp [hx]⟩
    · have hx2 : q x = false := by simpa using hx
      have h2 : xs.find? q = some u := by simpa [List.find?, hx2] using h
      obtain ⟨pre, post, he, hpre, hu, hf⟩ := ih h2
      refine ⟨x :: pre, post, by simp [he], ?_, hu, by simp [hx2, hf]⟩
      intro y hy
      rcases List.mem_cons.1 hy with rfl | hy2
      · exact hx2
      · exact hpre y hy2

/-- C8 (as the code has it): when some registered identity matches, the view of the
first matching identity in insertion order is invoked first, and after it returns
the views of all later matching identities are invoked as well, in insertion
order; no failure message is printed. -/
theorem System.authStep_first_match_first (fuel : Nat) (sys : System) (l p : String)
    (w : Console) (u : AnyUser)
    (h : sys.users_.find? (fun x => x.auth l p) = some u) :
    ∃ pre post, sys.users_ = pre ++ u :: post ∧ (∀ x ∈ pre, x.auth l p = false) ∧
      u.auth l p = true ∧
      System.authStep fuel sys l p w =
        match u.menu fuel (w.call u) with
        | Except.error e => Except.error e
        | Except.ok w1 => runViews fuel (post.filter (fun x => x.auth l p)) w1 := by
  obtain ⟨pre, post, he, hpre, hu, hf⟩ := filter_of_find _ _ _ h
  refine ⟨pre, post, he, hpre, hu, ?_⟩
  rw [System.authStep_eq_spec]
  unfold specAuthStep matching
  rw [hf]
  simp only [runViews]
  cases u.menu fuel (w.call u) with
  | error e => rfl
  | ok w1 =>
    simp only []
    cases runViews fuel (post.filter (fun x => x.auth l p)) w1 <;> simp

theorem System.authStep_first_match_first_witness :
    ∃ pre post, dupSystem.users_ = pre ++ AnyUser.student alice :: post ∧
      (∀ x ∈ pre, x.auth "alice" "123" = false) ∧
      (AnyUser.student alice).auth "alice" "123" = true ∧
      System.authStep 3 dupSystem "alice" "123" (Console.ofInput "0\n0\n") =
        match (AnyUser.student alice).menu 3
          ((Console.ofInput "0\n0\n").call (AnyUser.student alice)) with
        | Except.error e => Except.error e
        | Except.ok w1 => runViews 3 (post.filter (fun x => x.auth "alice" "123")) w1 :=
  System.authStep_first_match_first 3 dupSystem "alice" "123" (Console.ofInput "0\n0\n")
    (AnyUser.student alice) (by decide)

/-- C8 as stated fails: in a directory where two identities share the entered
login/password, the first matching identity is `alice`, yet the authentication step
calls the view of `alice` and then the view of `twin`. -/
theorem System.authStep_not_first_match_only :
    ∃ w', System.authStep 3 dupSystem "alice" "123" (Console.ofInput "0\n0\n") = Except.ok w' ∧
      dupSystem.users_.find? (fun x => x.auth "alice" "123") = some (AnyUser.student alice) ∧
      callsOf w'.trace = [AnyUser.student alice, AnyUser.student twin] ∧
      callsOf w'.trace ≠ [AnyUser.student alice] :=
  ⟨_, rfl, by decide, by decide, by decide⟩

/-! ## Session loop: the exit sentinel -/

theorem dropWhile_skip {q : Char → Bool} (ws r : List Char) (hws : ∀ c ∈ ws, q c = true)
    (hr : ∀ c ∈ r.head?, q c = false) : (ws ++ r).dropWhile q = r := by
  induction ws with
  | nil =>
    cases r with
    | nil => rfl
    | cons c cs =>
      have hc : q c = false := hr c (by simp)
      simp [List.dropWhile, hc]
  | cons x xs ih =>
    have hx : q x = true := hws x (List.mem_cons_self _ _)
    simp only [List.cons_append, List.dropWhile, hx]
    exact ih (fun c hc => hws c (List.mem_cons_of_mem _ hc))

theorem takeWhile_token {q : Char → Bool} (tok r : List Char) (htok : ∀ c ∈ tok, q c = true)
    (hr : ∀ c ∈ r.head?, q c = false) : (tok ++ r).takeWhile q = tok := by
  induction tok with
  | nil =>
    cases r with
    | nil => rfl
    | cons c cs =>
      have hc : q c = false := hr c (by simp)
      simp [List.takeWhile, hc]
  | cons x xs ih =>
    have hx : q x = true := htok x (List.mem_cons_self _ _)
    have h2 := ih (fun c hc => htok c (List.mem_cons_of_mem _ hc))
    simp only [List.cons_append, List.takeWhile, hx]
    exact congrArg (List.cons x) h2

theorem readString_token (w : Console) (ws tok rest : List Char) (hgood : w.good = true)
    (hin : w.input = ws ++ tok ++ rest) (hws : ∀ c ∈ ws, isSpace c = true)
    (htok : ∀ c ∈ tok, isSpace c = false) (hne : tok ≠ [])
    (hrest : ∀ c ∈ rest.head?, isSpace c = true) :
    readString w = (some (String.mk tok), { w with input := rest, eof := rest.isEmpty }) := by
  have h1 : w.input.dropWhile isSpace = tok ++ rest := by
    rw [hin, List.append_assoc]
    apply dropWhile_skip ws (tok ++ rest) hws
    cases tok with
    | nil => exact absurd rfl hne
    | cons c cs =>
      intro x hx
      simp only [List.cons_append, List.head?_cons, Option.mem_def, Option.some.injEq] at hx
      subst hx
      exact htok _ (List.mem_cons_self _ _)
  have h2 : (tok ++ rest).takeWhile (fun x => !isSpace x) = tok :=
    takeWhile_token tok rest (fun c hc => by simp [htok c hc]) (fun c hc => by simp [hrest c hc])
  have h3 : (tok ++ rest).dropWhile (fun x => !isSpace x) = rest :=
    dropWhile_skip tok rest (fun c hc => by simp [htok c hc]) (fun c hc => by simp [hrest c hc])
  unfold readString
  rw [if_pos hgood, h1]
  cases hc : tok ++ rest with
  | nil =>
    cases tok with
    | nil => exact absurd rfl hne
    | cons c cs => simp at hc
  | cons c cs =>
    simp only []
    rw [← hc, h2, h3]

/-- C10: whenever the token read at the top-level login prompt is the literal
`exit` (the stream is good and the unread input is white space, then `exit`, then
either nothing or a white-space character), `System::run` returns at once for every
directory and every budget of at least one iteration: the only event added is the
login prompt (no password prompt, no view call, no failure message) and the unread
input is exactly what followed the token, so no password was read. -/
theorem System.run_exit_sentinel (fuel : Nat) (sys : System) (w : Console)
    (ws rest : List Char) (hgood : w.good = true)
    (hin : w.input = ws ++ "exit".toList ++ rest)
    (hws : ∀ c ∈ ws, isSpace c = true) (hrest : ∀ c ∈ rest.head?, isSpace c = true) :
    System.run (fuel + 1) sys w =
      Except.ok { input := rest, eof := rest.isEmpty, fail := w.fail,
                  trace := w.trace ++ [Event.out (Out.str "\nLogin(exit=quit): ")] } := by
  have hr := readString_token (loginPrompt w) ws "exit".toList rest hgood hin hws
    (by decide) (by decide) hrest
  unfold System.run
  simp only [hr, tokenOr]
  rw [if_pos (by rfl)]
  rfl

theorem System.run_exit_sentinel_witness :
    System.run 1 exitSystem (Console.ofInput " exit pw\n0\n") =
      Except.ok { input := " pw\n0\n".toList, eof := false, fail := false,
                  trace := [Event.out (Out.str "\nLogin(exit=quit): ")] } :=
  System.run_exit_sentinel 0 exitSystem (Console.ofInput " exit pw\n0\n") [' '] " pw\n0\n".toList
    (by decide) (by decide) (by decide) (by decide)

/-! ## Teacher view -/

/-- C9 (as the code has it): in the per-student action of the Teacher view, for a
list of `n` students and a pick `idx` read at the prompt: if `1 ≤ idx ≤ n` the
statistics line printed is that of the student at position `idx - 1`, whose access
is within bounds; otherwise no student is accessed and no statistics line or error
message is printed.  In both cases the action does not fail, its last output is the
pause prompt `"Press Enter to continue..."`, and the menu loop continues. -/
theorem Teacher.perStudent_pick (fuel : Nat) (t : Teacher) (w w1 w2 : Console) (idx : Int)
    (hc : readInt (t.menuPrompt w) = (some 1, w1))
    (hidx : readInt (pickPrompt t w1) = (some idx, w2)) :
    ((1 ≤ idx ∧ idx ≤ (t.students_.length : Int)) →
      ∃ s, t.students_[(idx - 1).toNat]? = some s ∧
        t.perStudent w1 = Except.ok (pause (statsLine s w2)) ∧
        (pause (statsLine s w2)).trace = (pickPrompt t w1).trace ++
          [Event.out (Out.str "Avg:"), Event.out (Out.dbl s.average),
           Event.out (Out.str " Min:"), Event.out (Out.str (optText s.min)),
           Event.out (Out.str " Max:"), Event.out (Out.str (optText s.max)),
           Event.out (Out.chr '\n'), Event.out (Out.str "Press Enter to continue...")] ∧
        Teacher.menu (fuel + 1) t w = Teacher.menu fuel t (pause (statsLine s w2))) ∧
    (¬ (1 ≤ idx ∧ idx ≤ (t.students_.length : Int)) →
      t.perStudent w1 = Except.ok (pause w2) ∧
      (pause w2).trace = (pickPrompt t w1).trace ++
        [Event.out (Out.str "Press Enter to continue...")] ∧
      Teacher.menu (fuel + 1) t w = Teacher.menu fuel t (pause w2)) := by
  have hw2 : w2.trace = (pickPrompt t w1).trace := by
    have := readInt_trace (pickPrompt t w1)
    rw [hidx] at this
    exact this
  have hpick : pickedIndex t w1 = idx := by simp [pickedIndex, hidx]
  have hmenu : ∀ w3, t.perStudent w1 = Except.ok w3 →
      Teacher.menu (fuel + 1) t w = Teacher.menu fuel t w3 := by
    intro w3 h3
    conv_lhs => unfold Teacher.menu
    simp only [hc, h3]
    rw [if_neg (by decide), if_pos trivial]
  constructor
  · intro hv
    have hlt : (idx - 1).toNat < t.students_.length := by omega
    have hget : t.students_[(idx - 1).toNat]? = some (t.students_[(idx - 1).toNat]) :=
      List.getElem?_eq_getElem hlt
    have hper : t.perStudent w1 = Except.ok (pause (statsLine t.students_[(idx - 1).toNat] w2)) := by
      unfold Teacher.perStudent
      simp only [hpick, hidx]
      rw [if_pos ⟨hv.1, hv.2⟩, hget]
    refine ⟨_, hget, hper, ?_, hmenu _ hper⟩
    simp [hw2]
  · intro hv
    have hper : t.perStudent w1 = Except.ok (pause w2) := by
      unfold Teacher.perStudent
      simp only [hpick, hidx]
      rw [if_neg hv]
    refine ⟨hper, ?_, hmenu _ hper⟩
    simp [hw2]

theorem Teacher.perStudent_pick_witness :
    (∃ s, tina.students_[((2 : Int) - 1).toNat]? = some s ∧ s = bob ∧
      Teacher.menu 2 tina (Console.ofInput "1\n2\n0\n") =
        Teacher.menu 1 tina (pause (statsLine s
          (readInt (pickPrompt tina (readInt (tina.menuPrompt
            (Console.ofInput "1\n2\n0\n"))).2)).2))) ∧
    Teacher.menu 2 tina (Console.ofInput "1\n3\n0\n") =
      Teacher.menu 1 tina (pause (readInt (pickPrompt tina (readInt (tina.menuPrompt
        (Console.ofInput "1\n3\n0\n"))).2)).2) := by
  constructor
  · obtain ⟨s, h1, _, _, h4⟩ :=
      (Teacher.perStudent_pick 1 tina (Console.ofInput "1\n2\n0\n") _ _ 2 rfl rfl).1
        (by decide)
    have hs : s = bob := by
      have h5 : tina.students_[((2 : Int) - 1).toNat]? = some bob := by decide
      rw [h5] at h1
      exact (Option.some.inj h1).symm
    exact ⟨s, h1, hs, h4⟩
  · exact ((Teacher.perStudent_pick 1 tina (Console.ofInput "1\n3\n0\n") _ _ 3 rfl rfl).2
      (by decide)).2.2

/-- C9 as stated fails: with two students and the pick 3, the per-student action
still produces output after the pick, namely the pause prompt. -/
theorem Teacher.perStudent_invalid_pick_prints :
    ∃ w', tina.perStudent (Console.ofInput "3\n") = Except.ok w' ∧
      pickedIndex tina (Console.ofInput "3\n") = 3 ∧
      tina.students_.length = 2 ∧
      w'.trace = (pickPrompt tina (Console.ofInput "3\n")).trace ++
        [Event.out (Out.str "Press Enter to continue...")] ∧
      outsOf w'.trace ≠ outsOf (pickPrompt tina (Console.ofInput "3\n")).trace :=
  ⟨_, rfl, by decide, by decide, by decide, by decide⟩

/-! ## Machine arithmetic: lemmas -/

theorem wrapInt_of_range (x : Int) (h1 : -2147483648 ≤ x) (h2 : x ≤ 2147483647) :
    wrapInt x = x := by
  unfold wrapInt
  omega

theorem wrapInt_bounds (x : Int) : -2147483648 ≤ wrapInt x ∧ wrapInt x ≤ 2147483647 := by
  unfold wrapInt
  omega

theorem wrapInt_add_wrapInt (a b : Int) : wrapInt (wrapInt a + b) = wrapInt (a + b) := by
  unfold wrapInt
  omega

theorem accumulate_wrap (xs : List Int) (a : Int) :
    accumulate xs (wrapInt a) = wrapInt (a + xs.sum) := by
  induction xs generalizing a with
  | nil => simp [accumulate]
  | cons x xs ih =>
    simp only [accumulate, List.sum_cons]
    rw [wrapInt_add_wrapInt, ih, add_assoc]

theorem accumulate_zero (xs : List Int) : accumulate xs 0 = wrapInt xs.sum := by
  have h := accumulate_wrap xs 0
  have h0 : wrapInt 0 = 0 := by decide
  rw [h0, zero_add] at h
  exact h

theorem sum_bounds_of_range (xs : List Int) (h : ∀ e ∈ xs, 1 ≤ e ∧ e ≤ 5) :
    (xs.length : Int) ≤ xs.sum ∧ xs.sum ≤ 5 * (xs.length : Int) := by
  induction xs with
  | nil => simp
  | cons x xs ih =>
    have hx := h x (List.mem_cons_self _ _)
    have hi := ih (fun e he => h e (List.mem_cons_of_mem _ he))
    simp only [List.length_cons, List.sum_cons]
    push_cast
    constructor <;> omega

theorem roundHalfEven_abs_sub_le (x : ℚ) : |(roundHalfEven x : ℚ) - x| ≤ 1 / 2 := by
  have h1 : (⌊x⌋ : ℚ) ≤ x := Int.floor_le x
  have h2 : x < (⌊x⌋ : ℚ) + 1 := Int.lt_floor_add_one x
  unfold roundHalfEven
  rw [abs_le]
  split_ifs with ha hb hc
  · constructor <;> linarith
  · push_cast
    constructor <;> linarith
  · constructor <;> linarith
  · push_cast
    constructor <;> linarith

theorem roundHalfEven_of_near (x : ℚ) (m : ℤ) (h : |x - (m : ℚ)| < 1 / 2) :
    roundHalfEven x = m := by
  rw [abs_lt] at h
  have hfl : ⌊x⌋ = m ∨ ⌊x⌋ = m - 1 := by
    by_cases hx : (m : ℚ) ≤ x
    · left
      rw [Int.floor_eq_iff]
      constructor <;> linarith
    · right
      rw [Int.floor_eq_iff]
      push_cast
      constructor <;> linarith
  unfold roundHalfEven
  rcases hfl with hf | hf
  · rw [hf, if_pos (by linarith)]
  · rw [hf]
    push_cast
    rw [if_neg (by linarith), if_pos (by linarith)]
    ring

theorem roundHalfEven_intCast (z : ℤ) : roundHalfEven (z : ℚ) = z :=
  roundHalfEven_of_near _ z (by simp)

theorem roundHalfEven_tie (f : ℤ) :
    roundHalfEven ((f : ℚ) + 1 / 2) = if f % 2 = 0 then f else f + 1 := by
  have hf : ⌊(f : ℚ) + 1 / 2⌋ = f := by
    rw [Int.floor_eq_iff]
    constructor <;> linarith
  unfold roundHalfEven
  rw [hf, if_neg (by linarith), if_neg (by linarith)]

theorem log2_eq_of_bounds (r : ℚ) (z : ℤ) (hlo : (2 : ℚ) ^ z ≤ r)
    (hhi : r < (2 : ℚ) ^ (z + 1)) : Int.log 2 r = z := by
  have hpos : 0 < r := lt_of_lt_of_le (by positivity) hlo
  have h1 : z ≤ Int.log 2 r :=
    (Int.zpow_le_iff_le_log (by norm_num) hpos).1 (by exact_mod_cast hlo)
  have h2 : Int.log 2 r < z + 1 :=
    (Int.lt_zpow_iff_log_lt (by norm_num) hpos).1 (by exact_mod_cast hhi)
  omega

theorem fl64_abs_sub_le (q : ℚ) : |fl64 q - q| ≤ |q| / 2 ^ 53 := by
  by_cases hq : q = 0
  · simp [fl64, hq]
  · have habs : 0 < |q| := abs_pos.2 hq
    have hlog : (2 : ℚ) ^ Int.log 2 |q| ≤ |q| := by
      have := Int.zpow_log_le_self (b := 2) (by norm_num) habs
      exact_mod_cast this
    set e := Int.log 2 |q| with he
    have hp : (0 : ℚ) < 2 ^ (e - 52) := by positivity
    have hinv : (2 : ℚ) ^ (52 - e) * 2 ^ (e - 52) = 1 := by
      rw [← zpow_add₀ (two_ne_zero)]
      simp
    have hsplit : (2 : ℚ) ^ (e - 52) = 2 ^ e / 2 ^ 52 := by
      rw [zpow_sub₀ (two_ne_zero)]
      norm_cast
    have hr := roundHalfEven_abs_sub_le (q * 2 ^ (52 - e))
    have heq : fl64 q - q =
        ((roundHalfEven (q * 2 ^ (52 - e)) : ℚ) - q * 2 ^ (52 - e)) * 2 ^ (e - 52) := by
      simp only [fl64, if_neg hq, ← he]
      rw [sub_mul, mul_assoc, hinv, mul_one]
    rw [heq, abs_mul, abs_of_pos hp]
    calc |(roundHalfEven (q * 2 ^ (52 - e)) : ℚ) - q * 2 ^ (52 - e)| * 2 ^ (e - 52)
        ≤ 1 / 2 * 2 ^ (e - 52) := mul_le_mul_of_nonneg_right hr hp.le
      _ = 2 ^ e / 2 ^ 53 := by rw [hsplit]; ring
      _ ≤ |q| / 2 ^ 53 := by
          apply div_le_div_of_nonneg_right hlog
          positivity

theorem fl64_eval (q : ℚ) (e m : ℤ) (hlo : (2 : ℚ) ^ e ≤ |q|)
    (hhi : |q| < (2 : ℚ) ^ (e + 1)) (hr : roundHalfEven (q * 2 ^ (52 - e)) = m) :
    fl64 q = (m : ℚ) * 2 ^ (e - 52) := by
  have hq : q ≠ 0 := by
    intro h
    rw [h, abs_zero] at hlo
    exact absurd hlo (not_le.2 (by positivity))
  have hl := log2_eq_of_bounds |q| e hlo hhi
  simp only [fl64, if_neg hq, hl, hr]

theorem fl64_intCast (k : ℤ) (hk : |k| < 2 ^ 53) : fl64 (k : ℚ) = k := by
  by_cases h0 : k = 0
  · simp [fl64, h0]
  · have hq : (k : ℚ) ≠ 0 := by exact_mod_cast h0
    have habs : 0 < |(k : ℚ)| := abs_pos.2 hq
    have hlt : |(k : ℚ)| < (2 : ℚ) ^ (53 : ℤ) := by
      have : ((|k| : ℤ) : ℚ) < ((2 ^ 53 : ℤ) : ℚ) := by exact_mod_cast hk
      rw [Int.cast_abs] at this
      norm_num at this ⊢
      exact this
    have hlog : Int.log 2 |(k : ℚ)| < 53 :=
      (Int.lt_zpow_iff_log_lt (by norm_num) habs).1 (by exact_mod_cast hlt)
    set e := Int.log 2 |(k : ℚ)| with he
    obtain ⟨n, hn⟩ : ∃ n : ℕ, 52 - e = (n : ℤ) := ⟨(52 - e).toNat, by omega⟩
    have hinv : (2 : ℚ) ^ (52 - e) * 2 ^ (e - 52) = 1 := by
      rw [← zpow_add₀ (two_ne_zero)]
      simp
    have hscaled : (k : ℚ) * 2 ^ (52 - e) = ((k * 2 ^ n : ℤ) : ℚ) := by
      rw [hn, zpow_natCast]
      push_cast
      rfl
    simp only [fl64, if_neg hq, ← he]
    rw [hscaled, roundHalfEven_intCast, ← hscaled, mul_assoc, hinv, mul_one]

theorem fl64_natCast (n : ℕ) (hn : n < 2 ^ 53) : fl64 (n : ℚ) = n := by
  have h := fl64_intCast (n : ℤ) (by
    rw [abs_of_nonneg (by positivity)]
    exact_mod_cast hn)
  simpa using h

theorem fl64_neg_of_neg (q : ℚ) (hq : q < 0) : fl64 q < 0 := by
  have h := fl64_abs_sub_le q
  rw [abs_of_neg hq] at h
  have h2 := (abs_le.1 h).2
  have h3 : (-q) / 2 ^ 53 < -q := by
    apply div_lt_self (by linarith)
    norm_num
  linarith

/-! ## Averages: lemmas -/

theorem Student.average_eq_fl64 (s : Student) (hne : s.grades_ ≠ [])
    (hlen : s.grades_.length < 2 ^ 53) :
    s.average = fl64 (((wrapInt s.grades_.sum : Int) : ℚ) / ((s.grades_.length : Nat) : ℚ)) := by
  have hb := wrapInt_bounds s.grades_.sum
  have h1 : fl64 ((wrapInt s.grades_.sum : Int) : ℚ) = ((wrapInt s.grades_.sum : Int) : ℚ) :=
    fl64_intCast _ (by rw [abs_lt]; constructor <;> omega)
  simp [Student.average, hne, accumulate_zero, h1, fl64_natCast _ hlen]

theorem Student.average_of_int_mean (s : Student) (k : ℤ) (hne : s.grades_ ≠ [])
    (hlen : s.grades_.length < 2 ^ 53) (hw : wrapInt s.grades_.sum = k * (s.grades_.length : ℤ))
    (hk : |k| < 2 ^ 53) : s.average = (k : ℚ) := by
  rw [Student.average_eq_fl64 s hne hlen, hw]
  have hpos : ((s.grades_.length : ℕ) : ℚ) ≠ 0 := by
    have : 0 < s.grades_.length := List.length_pos.2 hne
    exact_mod_cast this.ne'
  have h : ((k * (s.grades_.length : ℤ) : ℤ) : ℚ) / ((s.grades_.length : ℕ) : ℚ) = (k : ℚ) := by
    push_cast
    field_simp
  rw [h, fl64_intCast k hk]

theorem alice_average : alice.average = 4 := by
  have h := Student.average_of_int_mean alice 4 (by decide) (by norm_num [alice, Student.new])
    (by decide) (by norm_num)
  simpa using h

theorem bob_average : bob.average = 4878899596318037 / 2 ^ 50 := by
  rw [Student.average_eq_fl64 bob (by decide) (by norm_num [bob, Student.new])]
  have h : ((wrapInt bob.grades_.sum : Int) : ℚ) / ((bob.grades_.length : Nat) : ℚ) = 13 / 3 := by
    have h1 : wrapInt bob.grades_.sum = 13 := by decide
    have h2 : bob.grades_.length = 3 := by decide
    rw [h1, h2]
    norm_num
  rw [h, fl64_eval (13 / 3) 2 4878899596318037 (by norm_num [abs_of_pos])
    (by norm_num [abs_of_pos]) (roundHalfEven_of_near _ _ (by norm_num [abs_lt]))]
  norm_num

theorem sumAverages_eq_flSum (ss : List Student) (sum : ℚ) :
    sumAverages ss sum = flSum (ss.map Student.average) sum := by
  induction ss generalizing sum with
  | nil => rfl
  | cons s ss ih => simp [sumAverages, flSum, ih]

theorem flSum_error_step (u c A acc T a : ℚ) (hu : 0 ≤ u) (hc : 0 ≤ c)
    (hT : |T| ≤ A) (hE : |acc - T| ≤ c * A) (r : ℚ) (hr : |r - (acc + a)| ≤ u * |acc + a|) :
    |r - (T + a)| ≤ ((1 + u) * (1 + c) - 1) * (A + |a|) := by
  have ha : 0 ≤ |a| := abs_nonneg a
  have h1 : |acc| ≤ A + c * A := by
    have : |acc| ≤ |acc - T| + |T| := by
      have := abs_add (acc - T) T
      simpa using this
    linarith
  have h2 : |acc + a| ≤ A + c * A + |a| := le_trans (abs_add acc a) (by linarith)
  have h3 : |r - (T + a)| ≤ |r - (acc + a)| + |acc - T| := by
    have := abs_add (r - (acc + a)) (acc - T)
    have he : r - (acc + a) + (acc - T) = r - (T + a) := by ring
    rw [he] at this
    exact this
  have h4 : u * |acc + a| ≤ u * (A + c * A + |a|) := mul_le_mul_of_nonneg_left h2 hu
  have h5 : 0 ≤ c * |a| := mul_nonneg hc ha
  have h6 : 0 ≤ u * c * |a| := mul_nonneg (mul_nonneg hu hc) ha
  nlinarith

theorem flSum_error (as : List ℚ) (acc T A : ℚ) (k : ℕ) (hA : 0 ≤ A) (hT : |T| ≤ A)
    (hE : |acc - T| ≤ ((1 + unitRoundoff) ^ k - 1) * A) :
    |flSum as acc - (T + as.sum)| ≤
      ((1 + unitRoundoff) ^ (k + as.length) - 1) * (A + (as.map (fun a => |a|)).sum) := by
  have hu : (0 : ℚ) ≤ unitRoundoff := by norm_num [unitRoundoff]
  induction as generalizing acc T A k with
  | nil => simpa [flSum] using hE
  | cons a as ih =>
    have hc : (0 : ℚ) ≤ (1 + unitRoundoff) ^ k - 1 := by
      have : (1 : ℚ) ≤ (1 + unitRoundoff) ^ k := one_le_pow₀ (by linarith)
      linarith
    have hr : |fl64 (acc + a) - (acc + a)| ≤ unitRoundoff * |acc + a| := by
      have := fl64_abs_sub_le (acc + a)
      rw [unitRoundoff]
      calc |fl64 (acc + a) - (acc + a)| ≤ |acc + a| / 2 ^ 53 := this
        _ = 1 / 2 ^ 53 * |acc + a| := by ring
    have hstep := flSum_error_step unitRoundoff _ A acc T a hu hc hT hE _ hr
    have hpow : (1 + unitRoundoff) * (1 + ((1 + unitRoundoff) ^ k - 1)) - 1 =
        (1 + unitRoundoff) ^ (k + 1) - 1 := by ring
    rw [hpow] at hstep
    have hT2 : |T + a| ≤ A + |a| := le_trans (abs_add T a) (by linarith)
    have hA2 : 0 ≤ A + |a| := by positivity
    have := ih (fl64 (acc + a)) (T + a) (A + |a|) (k + 1) hA2 hT2 hstep
    simp only [flSum, List.sum_cons, List.map_cons, List.length_cons]
    have e1 : k + (as.length + 1) = k + 1 + as.length := by ring
    have e2 : T + (a + as.sum) = T + a + as.sum := by ring
    have e3 : A + (|a| + (as.map (fun a => |a|)).sum) = A + |a| + (as.map (fun a => |a|)).sum := by
      ring
    rw [e1, e2, e3]
    exact this

theorem classAverage_error (t : Teacher) (hne : t.students_ ≠ [])
    (hlen : t.students_.length < 2 ^ 53) :
    |t.classAverage - (t.students_.map Student.average).sum / ((t.students_.length : Nat) : ℚ)| ≤
      ((1 + unitRoundoff) ^ (t.students_.length + 1) - 1) *
        ((t.students_.map (fun s => |s.average|)).sum / ((t.students_.length : Nat) : ℚ)) := by
  have hu : (0 : ℚ) ≤ unitRoundoff := by norm_num [unitRoundoff]
  set n := t.students_.length with hn
  have hnpos : (0 : ℚ) < (n : ℚ) := by
    have : 0 < n := List.length_pos.2 hne
    exact_mod_cast this
  set S := sumAverages t.students_ 0 with hS
  set T := (t.students_.map Student.average).sum with hT
  set B := (t.students_.map (fun s => |s.average|)).sum with hB
  set c := (1 + unitRoundoff) ^ n - 1 with hc
  have hc0 : 0 ≤ c := by
    have : (1 : ℚ) ≤ (1 + unitRoundoff) ^ n := one_le_pow₀ (by linarith)
    linarith
  have hsum : |S - T| ≤ c * B := by
    have h := flSum_error (t.students_.map Student.average) 0 0 0 0 le_rfl (by simp) (by simp)
    simp only [zero_add, List.length_map, List.map_map] at h
    rw [hS, sumAverages_eq_flSum]
    exact h
  have hTB : |T| ≤ B := by
    have h : ∀ l : List Student,
        |(l.map Student.average).sum| ≤ (l.map (fun s => |s.average|)).sum := by
      intro l
      induction l with
      | nil => simp
      | cons s l ih =>
        simp only [List.map_cons, List.sum_cons]
        exact le_trans (abs_add _ _) (by linarith)
    exact h _
  have hB0 : 0 ≤ B := le_trans (abs_nonneg T) hTB
  have hSabs : |S| ≤ (1 + c) * B := by
    have : |S| ≤ |S - T| + |T| := by
      have := abs_add (S - T) T
      simpa using this
    nlinarith
  have hcls : t.classAverage = fl64 (S / (n : ℚ)) := by
    simp [Teacher.classAverage, hne, ← hS, ← hn, fl64_natCast n hlen]
  have hfl := fl64_abs_sub_le (S / (n : ℚ))
  have h1 : |fl64 (S / (n : ℚ)) - T / (n : ℚ)| ≤ |fl64 (S / (n : ℚ)) - S / (n : ℚ)| + |S - T| / (n : ℚ) := by
    have := abs_add (fl64 (S / (n : ℚ)) - S / (n : ℚ)) (S / (n : ℚ) - T / (n : ℚ))
    have he : fl64 (S / (n : ℚ)) - S / (n : ℚ) + (S / (n : ℚ) - T / (n : ℚ)) =
        fl64 (S / (n : ℚ)) - T / (n : ℚ) := by ring
    rw [he] at this
    have he2 : |S / (n : ℚ) - T / (n : ℚ)| = |S - T| / (n : ℚ) := by
      rw [← sub_div, abs_div, abs_of_pos hnpos]
    rw [he2] at this
    exact this
  have h2 : |S / (n : ℚ)| / 2 ^ 53 = unitRoundoff * (|S| / (n : ℚ)) := by
    rw [abs_div, abs_of_pos hnpos, unitRoundoff]
    ring
  have h3 : |S| / (n : ℚ) ≤ (1 + c) * B / (n : ℚ) := div_le_div_of_nonneg_right hSabs hnpos.le
  have h4 : |S - T| / (n : ℚ) ≤ c * B / (n : ℚ) := div_le_div_of_nonneg_right hsum hnpos.le
  have h5 : unitRoundoff * (|S| / (n : ℚ)) ≤ unitRoundoff * ((1 + c) * B / (n : ℚ)) :=
    mul_le_mul_of_nonneg_left h3 hu
  have hgoal : ((1 + unitRoundoff) ^ (n + 1) - 1) * (B / (n : ℚ)) =
      unitRoundoff * ((1 + c) * B / (n : ℚ)) + c * B / (n : ℚ) := by
    rw [hc]
    ring
  rw [hcls, hgoal]
  rw [h2] at hfl
  linarith

theorem tina_classAverage : tina.classAverage = 4691249611844266 / 2 ^ 50 := by
  have h0 : tina.classAverage =
      fl64 (fl64 (fl64 (0 + alice.average) + bob.average) / fl64 ((2 : ℕ) : ℚ)) := rfl
  have h4 : fl64 (4 : ℚ) = 4 := by
    have := fl64_intCast 4 (by norm_num)
    simpa using this
  have h2 : fl64 ((2 : ℕ) : ℚ) = 2 := by
    have := fl64_natCast 2 (by norm_num)
    simpa using this
  have hs : fl64 ((4 : ℚ) + 4878899596318037 / 2 ^ 50) = 4691249611844266 / 2 ^ 49 := by
    rw [fl64_eval _ 3 4691249611844266 (by norm_num [abs_of_pos]) (by norm_num [abs_of_pos])
      (by
        have e : ((4 : ℚ) + 4878899596318037 / 2 ^ 50) * 2 ^ ((52 : ℤ) - 3) =
            ((4691249611844266 : ℤ) : ℚ) + 1 / 2 := by norm_num
        rw [e, roundHalfEven_tie]
        decide)]
    norm_num
  have hd : fl64 ((4691249611844266 : ℚ) / 2 ^ 49 / 2) = 4691249611844266 / 2 ^ 50 := by
    rw [fl64_eval _ 2 4691249611844266 (by norm_num [abs_of_pos]) (by norm_num [abs_of_pos])
      (roundHalfEven_of_near _ _ (by norm_num [abs_lt]))]
    norm_num
  rw [h0, alice_average, bob_average, zero_add, h4, hs, h2, hd]

theorem unevenTeacher_classAverage : unevenTeacher.classAverage = 3 := by
  have h0 : unevenTeacher.classAverage =
      fl64 (fl64 (fl64 (0 + (Student.new "a" "a" [5]).average) +
        (Student.new "b" "b" [1, 1, 1]).average) / fl64 ((2 : ℕ) : ℚ)) := rfl
  have ha : (Student.new "a" "a" [5]).average = 5 := by
    have h := Student.average_of_int_mean (Student.new "a" "a" [5]) 5 (by decide)
      (by norm_num [Student.new]) (by decide) (by norm_num)
    simpa using h
  have hb : (Student.new "b" "b" [1, 1, 1]).average = 1 := by
    have h := Student.average_of_int_mean (Student.new "b" "b" [1, 1, 1]) 1 (by decide)
      (by norm_num [Student.new]) (by decide) (by norm_num)
    simpa using h
  have h5 : fl64 (5 : ℚ) = 5 := by
    have := fl64_intCast 5 (by norm_num)
    simpa using this
  have h6 : fl64 (6 : ℚ) = 6 := by
    have := fl64_intCast 6 (by norm_num)
    simpa using this
  have h3 : fl64 (3 : ℚ) = 3 := by
    have := fl64_intCast 3 (by norm_num)
    simpa using this
  have h2 : fl64 ((2 : ℕ) : ℚ) = 2 := by
    have := fl64_natCast 2 (by norm_num)
    simpa using this
  rw [h0, ha, hb, zero_add, h5, h2]
  norm_num
  rw [h6]
  norm_num
  exact h3

theorem manyFives_sum : manyFives.grades_.sum = 2147483650 := by
  show (List.replicate 429496730 (5 : ℤ)).sum = 2147483650
  rw [List.sum_replicate]
  norm_num

theorem manyFives_length : manyFives.grades_.length = 429496730 := by
  show (List.replicate 429496730 (5 : ℤ)).length = 429496730
  rw [List.length_replicate]

theorem manyFives_ne_nil : manyFives.grades_ ≠ [] := by
  intro h
  have := manyFives_length
  rw [h] at this
  simp at this

/-! ## Claims on the averages -/

/-- C5 (as the code has it): `Student::average` is exactly 0.0 on the empty grade
sequence.  On a non-empty sequence with elements in `[1,5]` whose `int` sum does not
overflow (at most 429496729 grades) it is the binary64 value nearest to the
arithmetic mean (sum of the grades divided by their count): it differs from the
mean by at most the mean times `2^-53`, and it equals the mean whenever the mean is
an integer.  The grades `[5,4,3]` give exactly 4.0 and no grades give 0.0. -/
theorem Student.average_rounds_mean :
    (∀ s : Student, s.grades = [] → s.average = 0) ∧
    (∀ s : Student, s.grades ≠ [] → (∀ e ∈ s.grades, 1 ≤ e ∧ e ≤ 5) →
      s.grades.length ≤ 429496729 →
        s.average = fl64 (((s.grades.sum : Int) : ℚ) / ((s.grades.length : Nat) : ℚ)) ∧
        |s.average - ((s.grades.sum : Int) : ℚ) / ((s.grades.length : Nat) : ℚ)| ≤
          ((s.grades.sum : Int) : ℚ) / ((s.grades.length : Nat) : ℚ) / 2 ^ 53 ∧
        (∀ k : Int, s.grades.sum = k * (s.grades.length : Int) → s.average = (k : ℚ))) ∧
    (Student.new "x" "x" [5, 4, 3]).average = 4 ∧
    (Student.new "y" "y" []).average = 0 := by
  have hemp : ∀ s : Student, s.grades = [] → s.average = 0 := by
    intro s hs
    have he : s.grades_ = [] := hs
    simp [Student.average, he]
  refine ⟨hemp, ?_, ?_, hemp _ rfl⟩
  · intro s hne hrange hlen
    have hne2 : s.grades_ ≠ [] := hne
    have hlen2 : s.grades_.length ≤ 429496729 := hlen
    have hlen3 : s.grades_.length < 2 ^ 53 := lt_of_le_of_lt hlen2 (by norm_num)
    have hb := sum_bounds_of_range s.grades_ hrange
    have hlpos : 0 < s.grades_.length := List.length_pos.2 hne2
    have hw : wrapInt s.grades_.sum = s.grades_.sum := wrapInt_of_range _ (by omega) (by omega)
    have havg := Student.average_eq_fl64 s hne2 hlen3
    rw [hw] at havg
    have hmean : (0 : ℚ) < ((s.grades_.sum : Int) : ℚ) / ((s.grades_.length : Nat) : ℚ) := by
      apply div_pos
      · have : (0 : ℤ) < s.grades_.sum := by omega
        exact_mod_cast this
      · exact_mod_cast hlpos
    refine ⟨havg, ?_, ?_⟩
    · have h := fl64_abs_sub_le (((s.grades_.sum : Int) : ℚ) / ((s.grades_.length : Nat) : ℚ))
      rw [abs_of_pos hmean] at h
      show |s.average - ((s.grades_.sum : Int) : ℚ) / ((s.grades_.length : Nat) : ℚ)| ≤ _
      rw [havg]
      exact h
    · intro k hk
      have hk2 : s.grades_.sum = k * (s.grades_.length : Int) := hk
      have hlz : (0 : ℤ) < (s.grades_.length : ℤ) := by exact_mod_cast hlpos
      have hk1 : 1 ≤ k := by
        by_contra hcon
        have : k ≤ 0 := by omega
        have : k * (s.grades_.length : ℤ) ≤ 0 := mul_nonpos_of_nonpos_of_nonneg this hlz.le
        omega
      have hk5 : k ≤ 5 := by
        by_contra hcon
        have h6 : 6 ≤ k := by omega
        have : 6 * (s.grades_.length : ℤ) ≤ k * (s.grades_.length : ℤ) :=
          mul_le_mul_of_nonneg_right h6 hlz.le
        omega
      exact Student.average_of_int_mean s k hne2 hlen3 (by rw [hw, hk2])
        (by rw [abs_lt]; constructor <;> omega)
  · have h := Student.average_of_int_mean (Student.new "x" "x" [5, 4, 3]) 4 (by decide)
      (by norm_num [Student.new]) (by decide) (by norm_num)
    simpa using h

theorem Student.average_rounds_mean_witness :
    (alice.average = fl64 (((alice.grades.sum : Int) : ℚ) / ((alice.grades.length : Nat) : ℚ)) ∧
      |alice.average - ((alice.grades.sum : Int) : ℚ) / ((alice.grades.length : Nat) : ℚ)| ≤
        ((alice.grades.sum : Int) : ℚ) / ((alice.grades.length : Nat) : ℚ) / 2 ^ 53 ∧
      (∀ k : Int, alice.grades.sum = k * (alice.grades.length : Int) →
        alice.average = (k : ℚ))) ∧
    (Student.new "y" "y" []).average = 0 :=
  ⟨Student.average_rounds_mean.2.1 alice (by decide) (by decide) (by decide),
    Student.average_rounds_mean.1 _ rfl⟩

/-- C5 as stated fails twice.  The grades `[5,4,4]` lie in `[1,5]` and have mean
13/3, which is no binary64 value: `average()` is 4878899596318037 / 2^50
(`0x1.1555555555555p+2`), not the mean.  For 429496730 grades of value 5 the mean is
5, but the `int` sum wraps to -2147483646 and `average()` is negative. -/
theorem Student.average_ne_exact_mean :
    ((∀ e ∈ bob.grades, 1 ≤ e ∧ e ≤ 5) ∧
      ((bob.grades.sum : Int) : ℚ) / ((bob.grades.length : Nat) : ℚ) = 13 / 3 ∧
      bob.average = 4878899596318037 / 2 ^ 50 ∧
      bob.average ≠ ((bob.grades.sum : Int) : ℚ) / ((bob.grades.length : Nat) : ℚ)) ∧
    ((∀ e ∈ manyFives.grades, 1 ≤ e ∧ e ≤ 5) ∧
      ((manyFives.grades.sum : Int) : ℚ) / ((manyFives.grades.length : Nat) : ℚ) = 5 ∧
      accumulate manyFives.grades 0 = -2147483646 ∧
      manyFives.average < 0) := by
  have hmean : ((bob.grades.sum : Int) : ℚ) / ((bob.grades.length : Nat) : ℚ) = 13 / 3 := by
    have h1 : bob.grades.sum = 13 := by decide
    have h2 : bob.grades.length = 3 := by decide
    rw [h1, h2]
    norm_num
  have hw : wrapInt manyFives.grades_.sum = -2147483646 := by
    rw [manyFives_sum]
    decide
  refine ⟨⟨by decide, hmean, bob_average, ?_⟩, ⟨?_, ?_, ?_, ?_⟩⟩
  · rw [hmean, bob_average]
    norm_num
  · intro e he
    have : e = 5 := List.eq_of_mem_replicate he
    omega
  · show ((manyFives.grades_.sum : Int) : ℚ) / ((manyFives.grades_.length : Nat) : ℚ) = 5
    rw [manyFives_sum, manyFives_length]
    norm_num
  · show accumulate manyFives.grades_ 0 = -2147483646
    rw [accumulate_zero, hw]
  · rw [Student.average_eq_fl64 manyFives manyFives_ne_nil
      (by rw [manyFives_length]; norm_num), hw, manyFives_length]
    apply fl64_neg_of_neg
    norm_num

/-- C7 (as the code has it): the value shown by the class-average action of the
Teacher view is 0.0 for an empty student list; otherwise it is the binary64 result
of adding the students' `average()` values in list order and dividing by the number
of students, each operation rounded to nearest.  For fewer than `2^53` students it
differs from the exact arithmetic mean of the `average()` values by at most
`(1 + 2^-53)^(n+1) - 1` times the mean of their absolute values.  The action prints
that value after `"Class average:"` and the menu runs it on selection 2.  It is the
mean of the averages, not of the pooled grades: students with grades `[5]` and
`[1,1,1]` give 3 while the pooled grades `[5,1,1,1]` have average 2.  The roster of
`main` (averages 4 and 4878899596318037 / 2^50) gives 4691249611844266 / 2^50, that
is 4.1666666666666661. -/
theorem Teacher.classAverage_rounds_mean_of_averages :
    (∀ t : Teacher, t.students_ = [] → t.classAverage = 0) ∧
    (∀ t : Teacher, t.students_ ≠ [] →
      t.classAverage =
        fl64 (flSum (t.students_.map Student.average) 0 /
          fl64 ((t.students_.length : Nat) : ℚ))) ∧
    (∀ t : Teacher, t.students_ ≠ [] → t.students_.length < 2 ^ 53 →
      |t.classAverage -
          (t.students_.map Student.average).sum / ((t.students_.length : Nat) : ℚ)| ≤
        ((1 + unitRoundoff) ^ (t.students_.length + 1) - 1) *
          ((t.students_.map (fun s => |s.average|)).sum /
            ((t.students_.length : Nat) : ℚ))) ∧
    (∀ (t : Teacher) (w : Console), (t.classAvgAction w).trace = w.trace ++
      [Event.out (Out.str "Class average:"), Event.out (Out.dbl t.classAverage),
       Event.out (Out.chr '\n'), Event.out (Out.str "Press Enter to continue...")]) ∧
    (∀ (fuel : Nat) (t : Teacher) (w w1 : Console), readInt (t.menuPrompt w) = (some 2, w1) →
      Teacher.menu (fuel + 1) t w = Teacher.menu fuel t (t.classAvgAction w1)) ∧
    (alice.average = 4 ∧ bob.average = 4878899596318037 / 2 ^ 50 ∧
      tina.classAverage = 4691249611844266 / 2 ^ 50) ∧
    (unevenTeacher.classAverage = 3 ∧ (Student.new "c" "c" [5, 1, 1, 1]).average = 2) := by
  refine ⟨?_, ?_, classAverage_error, ?_, ?_, ⟨alice_average, bob_average, tina_classAverage⟩,
    ⟨unevenTeacher_classAverage, ?_⟩⟩
  · intro t ht
    simp [Teacher.classAverage, ht]
  · intro t ht
    simp [Teacher.classAverage, ht, sumAverages_eq_flSum]
  · intro t w
    simp [Teacher.classAvgAction]
  · intro fuel t w w1 h
    conv_lhs => unfold Teacher.menu
    simp only [h]
    rw [if_neg (by decide), if_neg (by decide), if_pos trivial]
  · have h := Student.average_of_int_mean (Student.new "c" "c" [5, 1, 1, 1]) 2 (by decide)
      (by norm_num [Student.new]) (by decide) (by norm_num)
    simpa using h

theorem Teacher.classAverage_rounds_mean_of_averages_witness :
    |tina.classAverage -
        (tina.students_.map Student.average).sum / ((tina.students_.length : Nat) : ℚ)| ≤
      ((1 + unitRoundoff) ^ (tina.students_.length + 1) - 1) *
        ((tina.students_.map (fun s => |s.average|)).sum /
          ((tina.students_.length : Nat) : ℚ)) ∧
    tina.classAverage =
      fl64 (flSum (tina.students_.map Student.average) 0 /
        fl64 ((tina.students_.length : Nat) : ℚ)) ∧
    Teacher.menu 2 tina (Console.ofInput "2\n0\n") =
      Teacher.menu 1 tina (tina.classAvgAction (readInt (tina.menuPrompt
        (Console.ofInput "2\n0\n"))).2) ∧
    (Teacher.new "empty" "t" []).classAverage = 0 :=
  ⟨Teacher.classAverage_rounds_mean_of_averages.2.2.1 tina (by decide)
      (by norm_num [tina, Teacher.new]),
    Teacher.classAverage_rounds_mean_of_averages.2.1 tina (by decide),
    Teacher.classAverage_rounds_mean_of_averages.2.2.2.2.1 1 tina (Console.ofInput "2\n0\n") _ rfl,
    Teacher.classAverage_rounds_mean_of_averages.1 _ rfl⟩

/-- C7 as stated fails: for the roster of `main` the students' averages are 4 and
4878899596318037 / 2^50 (the binary64 value nearest 13/3) and the value displayed is
4691249611844266 / 2^50 (4.1666666666666661), which is neither 25/6 nor the exact
mean of the two `average()` values. -/
theorem Teacher.classAverage_ne_exact_mean :
    tina.students_ = [alice, bob] ∧ alice.average = 4 ∧
    bob.average = 4878899596318037 / 2 ^ 50 ∧
    tina.classAverage = 4691249611844266 / 2 ^ 50 ∧
    tina.classAverage ≠ 25 / 6 ∧
    tina.classAverage ≠ (alice.average + bob.average) / 2 := by
  refine ⟨rfl, alice_average, bob_average, tina_classAverage, ?_, ?_⟩
  · rw [tina_classAverage]
    norm_num
  · rw [tina_classAverage, alice_average, bob_average]
    norm_num

end SMS
